import Mathlib

/-!
Verification of the diff tree construction engine
(frontend `DiffTab` file-tree helpers: `toFileStats`, `buildDiffTree`).

The development is a shallow embedding of the TypeScript source into Lean.
JavaScript objects used as string-keyed maps are embedded as association
lists in key insertion order (`lookupKey` / `setKey`); assigning an existing
key replaces the stored value in place, assigning a fresh key appends, which
matches JS object key enumeration for the keys produced here.  The built-in
`Array.prototype.sort` (a stable comparison sort) is embedded as
`List.insertionSort`; `String.prototype.localeCompare` is an
environment-dependent locale comparison, so it is kept abstract as a
comparator parameter `lcmp` threaded through the builder.  `String.prototype.split`
on the separator "/" and the regex replace of leading slashes are embedded
directly over the character list of the string.
-/

/-- Modelled from the spec: the change kind enumeration `DiffChangeKind` of
`shared/types` is not part of the excerpt; spec section 3 lists the kinds
added, deleted, modified, renamed, copied, permission-change. -/
inductive DiffChangeKind where
  | added
  | deleted
  | modified
  | renamed
  | copied
  | permissionChange
deriving DecidableEq, Repr

/-- Modelled from the spec: the `Diff` record of `shared/types` (the
ChangeRecord of spec section 3): optional old/new path, a change kind and
optional old/new content.  Only the fields read by the excerpt are kept. -/
structure Diff where
  oldPath : Option String
  newPath : Option String
  change : DiffChangeKind
  oldContent : Option String
  newContent : Option String
deriving DecidableEq, Repr

/-- The per-file statistic produced by the stat extractor (source type `FileStat`). -/
structure FileStat where
  id : String
  path : String
  change : DiffChangeKind
  add : Nat
  del : Nat
deriving DecidableEq, Repr

/-- JS `a || b` on an optional string: `null`, `undefined` and the empty
string are falsy and select `b`. -/
def jsOrStr (a : Option String) (b : String) : String :=
  match a with
  | none => b
  | some s => if s = "" then b else s

/-- Splitting a character list on the separator character `/`, accumulator of
the current (reversed) segment.  Mirrors `String.prototype.split` with a
one-character separator: it keeps empty segments. -/
def splitSlashAux : List Char → List Char → List String
  | [], acc => [String.mk acc.reverse]
  | c :: cs, acc =>
      if c = '/' then String.mk acc.reverse :: splitSlashAux cs []
      else splitSlashAux cs (c :: acc)

/-- JS `s.split('/')`. -/
def jsSplitSlash (s : String) : List String :=
  splitSlashAux s.data []

/-- The segment list of a path as the builder computes it:
`s.path.split('/').filter(Boolean)` — split on `/` and drop empty segments. -/
def segsOf (p : String) : List String :=
  (jsSplitSlash p).filter (fun s => s ≠ "")

/-- JS `s.replace(/^\x2f+/, "")`: strip all leading slashes. -/
def stripLeadingSlashes (s : String) : String :=
  String.mk (s.data.dropWhile (fun c => c = '/'))

/-- Modelled from the spec: the external line-count collaborator
(`generateDiffFile` of `@git-diff-view/file` followed by `initRaw` and the
`additionLength` / `deletionLength` reads) is an opaque external function
(spec section 6).  Arguments are old name, old content, new name, new
content; `none` models an exception thrown anywhere inside the `try` block;
`some (a, d)` models a diff file object whose `additionLength` and
`deletionLength` properties may each be nullish (the source applies `?? 0`). -/
def LineCounter : Type :=
  String → String → String → String → Option (Option Nat × Option Nat)

/-- Source `computeAddDelForDiff`: build the external diff file for the
record and read the addition/deletion lengths; any failure is caught and
treated as zero counts. -/
def computeAddDelForDiff (gen : LineCounter) (diff : Diff) : Nat × Nat :=
  match gen (jsOrStr diff.oldPath (jsOrStr diff.newPath "unknown"))
            (jsOrStr diff.oldContent "")
            (jsOrStr diff.newPath (jsOrStr diff.oldPath "unknown"))
            (jsOrStr diff.newContent "") with
  | none => (0, 0)
  | some (a, d) => (a.getD 0, d.getD 0)

/-- The body of the `map` callback of source `toFileStats` at index `i`:
id is `newPath || oldPath || String(i)`, path is the same value with leading
slashes stripped, change is copied, add/del come from `computeAddDelForDiff`. -/
def statOfDiff (gen : LineCounter) (i : Nat) (d : Diff) : FileStat :=
  { id := jsOrStr d.newPath (jsOrStr d.oldPath (toString i))
    path := stripLeadingSlashes (jsOrStr d.newPath (jsOrStr d.oldPath (toString i)))
    change := d.change
    add := (computeAddDelForDiff gen d).1
    del := (computeAddDelForDiff gen d).2 }

/-- Source `toFileStats`, with `diffs.map((d, i) => ...)` rendered as an
index-passing recursion starting at `i`. -/
def toFileStatsFrom (gen : LineCounter) (i : Nat) : List Diff → List FileStat
  | [] => []
  | d :: ds => statOfDiff gen i d :: toFileStatsFrom gen (i + 1) ds

/-- Source `toFileStats : Diff[] → FileStat[]`. -/
def toFileStats (gen : LineCounter) (diffs : List Diff) : List FileStat :=
  toFileStatsFrom gen 0 diffs

/-- Build-phase tree node.  A `file` node carries name, full path, anchor id,
change kind and counts; a `dir` node carries name, full path, the add/del
fields of the mutable object and its `_childMap` (a string-keyed object,
embedded as an association list in key insertion order).  The always-empty
`children` array of the build-phase dir object is dropped: `toArray` replaces
it wholesale. -/
inductive BNode where
  | file (name path id : String) (change : DiffChangeKind) (add del : Nat)
  | dir (name path : String) (add del : Nat) (childMap : List (String × BNode))
deriving Repr

/-- A string-keyed JS object holding build-phase nodes. -/
abbrev BMap := List (String × BNode)

/-- Reading `m[k]` from a JS object embedded as an association list. -/
def lookupKey : BMap → String → Option BNode
  | [], _ => none
  | (k', v) :: rest, k => if k' = k then some v else lookupKey rest k

/-- Writing `m[k] = v` on a JS object embedded as an association list: an
existing key keeps its enumeration position, a fresh key is appended. -/
def setKey : BMap → String → BNode → BMap
  | [], k, v => [(k, v)]
  | (k', v') :: rest, k, v =>
      if k' = k then (k, v) :: rest else (k', v') :: setKey rest k v

/-- JS `currentPath ? currentPath + "/" + part : part`. -/
def jsJoin (cur part : String) : String :=
  if cur = "" then part else cur ++ "/" ++ part

/-- The inner loop of source `buildDiffTree` for one stat: walk the segment
list, threading the current joined path.  The terminal segment is written as
a file node (overwriting whatever was there); a non-terminal segment ensures
a dir node at that key — absent keys get a fresh zero-count dir, an existing
file node is converted to a dir carrying forward its add/del with an empty
child map, an existing dir node is kept — and recursion continues inside its
child map. -/
def insertParts (id : String) (change : DiffChangeKind) (add del : Nat) :
    List String → String → BMap → BMap
  | [], _, m => m
  | [part], cur, m =>
      setKey m part (.file part (jsJoin cur part) id change add del)
  | part :: p2 :: rest, cur, m =>
      match lookupKey m part with
      | none =>
          setKey m part (.dir part (jsJoin cur part) 0 0
            (insertParts id change add del (p2 :: rest) (jsJoin cur part) []))
      | some (.file _ _ _ _ a d) =>
          setKey m part (.dir part (jsJoin cur part) a d
            (insertParts id change add del (p2 :: rest) (jsJoin cur part) []))
      | some (.dir n p a d cm) =>
          setKey m part (.dir n p a d
            (insertParts id change add del (p2 :: rest) (jsJoin cur part) cm))
  termination_by structural parts _ _ => parts

/-- One iteration of the outer `for (const s of stats)` loop of
`buildDiffTree`. -/
def insertStat (m : BMap) (s : FileStat) : BMap :=
  insertParts s.id s.change s.add s.del (segsOf s.path) "" m

/-- The build phase of `buildDiffTree`: fold all stats into the root object. -/
def buildRoot (stats : List FileStat) : BMap :=
  stats.foldl insertStat []

/-- Output tree node (source type `DiffTreeNode`): a dir with ordered
children and aggregated counts, or a file leaf. -/
inductive DiffTreeNode where
  | dir (name path : String) (children : List DiffTreeNode) (add del : Nat)
  | file (name path id : String) (change : DiffChangeKind) (add del : Nat)
deriving Repr

/-- Name of an output node. -/
def nodeName : DiffTreeNode → String
  | .dir n _ _ _ _ => n
  | .file n _ _ _ _ _ => n

/-- Whether an output node is a directory (`node.type === "dir"`). -/
def nodeIsDir : DiffTreeNode → Bool
  | .dir _ _ _ _ _ => true
  | .file _ _ _ _ _ _ => false

/-- Add count of an output node. -/
def nodeAdd : DiffTreeNode → Nat
  | .dir _ _ _ a _ => a
  | .file _ _ _ _ a _ => a

/-- Del count of an output node. -/
def nodeDel : DiffTreeNode → Nat
  | .dir _ _ _ _ d => d
  | .file _ _ _ _ _ d => d

/-- The sort comparator of `toArray`: directories before files, otherwise
`a.name.localeCompare(b.name)` where the locale comparison is the abstract
parameter `lcmp`. -/
def nodeCmp (lcmp : String → String → Ordering) (a b : DiffTreeNode) : Ordering :=
  if nodeIsDir a ≠ nodeIsDir b then (if nodeIsDir a then .lt else .gt)
  else lcmp (nodeName a) (nodeName b)

/-- The non-strict order induced by the comparator: `a` need not come after
`b`.  A stable comparison sort by `nodeCmp` produces a list sorted by this
relation. -/
def nodeLe (lcmp : String → String → Ordering) (a b : DiffTreeNode) : Prop :=
  nodeCmp lcmp a b ≠ Ordering.gt

instance (lcmp : String → String → Ordering) : DecidableRel (nodeLe lcmp) := fun a b => by
  unfold nodeLe
  infer_instance

/-- Sum of the add counts of a list of children (the aggregation loop of
`toArray`). -/
def sumAdd : List DiffTreeNode → Nat
  | [] => 0
  | c :: cs => nodeAdd c + sumAdd cs

/-- Sum of the del counts of a list of children. -/
def sumDel : List DiffTreeNode → Nat
  | [] => 0
  | c :: cs => nodeDel c + sumDel cs

mutual

/-- Conversion of one build-phase node by source `toArray`: a file is pushed
as is; a dir gets its child map converted and sorted, and its add/del are
recomputed as the sums over the converted children (the build-phase add/del
fields of the dir are overwritten by the spread `{...node, children, add, del}`). -/
def convertNode (lcmp : String → String → Ordering) : BNode → DiffTreeNode
  | .file n p id c a d => .file n p id c a d
  | .dir n p _ _ cm =>
      let children := List.insertionSort (nodeLe lcmp) (convertMap lcmp cm)
      .dir n p children (sumAdd children) (sumDel children)

/-- Conversion of all values of a child map, in key enumeration order
(the `for (const key of Object.keys(map))` loop before sorting). -/
def convertMap (lcmp : String → String → Ordering) : BMap → List DiffTreeNode
  | [] => []
  | (_, nd) :: rest => convertNode lcmp nd :: convertMap lcmp rest

end

/-- Source `toArray`: convert every node of a map and sort the result with
the dir-first, then name comparator. -/
def toArray (lcmp : String → String → Ordering) (m : BMap) : List DiffTreeNode :=
  List.insertionSort (nodeLe lcmp) (convertMap lcmp m)

/-- Source `buildDiffTree`: build the root object from the stats, then
convert, aggregate and sort it into the returned forest. -/
def buildDiffTree (lcmp : String → String → Ordering) (stats : List FileStat) :
    List DiffTreeNode :=
  toArray lcmp (buildRoot stats)

mutual

/-- Number of file leaves with anchor id `i` in an output forest node
(directories are searched recursively). -/
def countIdNode (i : String) : DiffTreeNode → Nat
  | .file _ _ id _ _ _ => if id = i then 1 else 0
  | .dir _ _ cs _ _ => countIdForest i cs

/-- Number of file leaves with anchor id `i` in an output forest. -/
def countIdForest (i : String) : List DiffTreeNode → Nat
  | [] => 0
  | c :: cs => countIdNode i c + countIdForest i cs

end

mutual

/-- Number of file nodes with anchor id `i` in a build-phase node. -/
def countB (i : String) : BNode → Nat
  | .file _ _ id _ _ _ => if id = i then 1 else 0
  | .dir _ _ _ _ cm => countMapB i cm

/-- Number of file nodes with anchor id `i` in a build-phase map. -/
def countMapB (i : String) : BMap → Nat
  | [] => 0
  | (_, nd) :: rest => countB i nd + countMapB i rest

end

mutual

/-- Exact bottom-up aggregation: a file always satisfies it; a dir satisfies
it when its add/del equal the sums over its direct children and all children
satisfy it recursively. -/
def AggNode : DiffTreeNode → Prop
  | .file _ _ _ _ _ _ => True
  | .dir _ _ cs a d => a = sumAdd cs ∧ d = sumDel cs ∧ AggForest cs

/-- Every node of the list satisfies the aggregation invariant. -/
def AggForest : List DiffTreeNode → Prop
  | [] => True
  | c :: cs => AggNode c ∧ AggForest cs

end

mutual

/-- Every sibling group inside the node is sorted by the comparator order. -/
def SortedNode (lcmp : String → String → Ordering) : DiffTreeNode → Prop
  | .file _ _ _ _ _ _ => True
  | .dir _ _ cs _ _ => List.Sorted (nodeLe lcmp) cs ∧ SortedAll lcmp cs

/-- Every node of the list has all its internal sibling groups sorted. -/
def SortedAll (lcmp : String → String → Ordering) : List DiffTreeNode → Prop
  | [] => True
  | c :: cs => SortedNode lcmp c ∧ SortedAll lcmp cs

end

/-- A forest together with all nested sibling groups is sorted: the top
level list is pairwise ordered by `nodeLe` (directories before files, names
ascending per the locale comparator within a type), and so is every sibling
group below it. -/
def SortedSib (lcmp : String → String → Ordering) (cs : List DiffTreeNode) : Prop :=
  List.Sorted (nodeLe lcmp) cs ∧ SortedAll lcmp cs

/-- Walk a build-phase map along a non-empty segment list: follow dir child
maps for the leading segments and return the node stored at the last one. -/
def findPath (m : BMap) : List String → Option BNode
  | [] => none
  | [p] => lookupKey m p
  | p :: q :: rest =>
      match lookupKey m p with
      | some (.dir _ _ _ _ cm) => findPath cm (q :: rest)
      | _ => none

/-- Walk an output forest along a non-empty segment list, selecting siblings
by node name (sibling names are unique, see the well-formedness invariant). -/
def findForest (forest : List DiffTreeNode) : List String → Option DiffTreeNode
  | [] => none
  | [p] => forest.find? (fun nd => nodeName nd == p)
  | p :: q :: rest =>
      match forest.find? (fun nd => nodeName nd == p) with
      | some (.dir _ _ cs _ _) => findForest cs (q :: rest)
      | _ => none

/-- Name field of a build-phase node. -/
def nameB : BNode → String
  | .file n _ _ _ _ _ => n
  | .dir n _ _ _ _ => n

mutual

/-- Well-formedness of a build-phase node: every child map below it is well
formed. -/
def WFNode : BNode → Prop
  | .file _ _ _ _ _ _ => True
  | .dir _ _ _ _ cm => WFMap cm

/-- Well-formedness of a build-phase map: keys are pairwise distinct, every
entry is stored under its own node name, and every node is well formed.
The builder only ever writes a node under its own name and `setKey` keeps
keys distinct, so every build-phase map satisfies this. -/
def WFMap : BMap → Prop
  | [] => True
  | (k, nd) :: rest =>
      nameB nd = k ∧ lookupKey rest k = none ∧ WFNode nd ∧ WFMap rest

end

/-- A concrete comparator used for concrete runs: code point comparison of
strings (the behaviour of localeCompare on ASCII names up to locale
tailoring). -/
def strCmp (a b : String) : Ordering := compare a b

/-- A line counter that always throws: models a collaborator failure on
every record. -/
def genNone : LineCounter := fun _ _ _ _ => none

/-- Two segment lists are incomparable when neither is a prefix of the
other; the insertion of a stat with segment list incomparable to `P` cannot
touch the node stored at position `P`. -/
def SegIncomp (a b : List String) : Prop := ¬ a <+: b ∧ ¬ b <+: a

/-- Join a segment list onto a current path the way the builder loop does. -/
def joinSegs (cur : String) (parts : List String) : String :=
  parts.foldl jsJoin cur

/-- Concrete input for the directory/file collision claims: a file at `a`
with counts (5,1), then a stat at `a/b` forcing `a` to become a directory. -/
def exC1 : List FileStat :=
  [ { id := "a", path := "a", change := .modified, add := 5, del := 1 },
    { id := "a/b", path := "a/b", change := .modified, add := 2, del := 0 } ]

/-- Concrete input with an ancestor/descendant path collision and no
duplicate path: the leaf inserted at `a/b` is destroyed by the later stat
at `a`. -/
def exC3 : List FileStat :=
  [ { id := "a/b", path := "a/b", change := .modified, add := 1, del := 0 },
    { id := "a", path := "a", change := .modified, add := 1, del := 0 } ]

/-- Concrete input with a duplicate path followed by a nesting collision:
the surviving stat `y` at path `a` is later destroyed by the stat at `a/b`. -/
def exC6 : List FileStat :=
  [ { id := "x", path := "a", change := .modified, add := 1, del := 0 },
    { id := "y", path := "a", change := .modified, add := 2, del := 0 },
    { id := "z", path := "a/b", change := .modified, add := 4, del := 0 } ]

/-- Concrete input where a file leaf overwrites a whole directory: paths
`a/b` then `a`. -/
def exC10 : List FileStat :=
  [ { id := "b", path := "a/b", change := .added, add := 1, del := 0 },
    { id := "a", path := "a", change := .deleted, add := 2, del := 3 } ]

/-- Scenario 2 of the spec: a root file `README.md` and a stat under `src`. -/
def exScen2 : List FileStat :=
  [ { id := "README.md", path := "README.md", change := .modified, add := 1, del := 0 },
    { id := "src/a.ts", path := "src/a.ts", change := .modified, add := 2, del := 0 } ]

/-- A change record with neither old nor new path and no content. -/
def dNull : Diff :=
  { oldPath := none, newPath := none, change := .added,
    oldContent := none, newContent := none }

theorem lookupKey_setKey_self : ∀ (m : BMap) (k : String) (v : BNode),
    lookupKey (setKey m k v) k = some v
  | [], k, v => by simp [setKey, lookupKey]
  | (k', v') :: rest, k, v => by
      by_cases h : k' = k
      · simp [setKey, h, lookupKey]
      · simp [setKey, h, lookupKey, lookupKey_setKey_self rest k v]

theorem lookupKey_setKey_other : ∀ (m : BMap) (k : String) (v : BNode) (k' : String),
    k ≠ k' → lookupKey (setKey m k v) k' = lookupKey m k'
  | [], k, v, k', hkk => by simp [setKey, lookupKey, hkk]
  | (k0, v0) :: rest, k, v, k', hkk => by
      by_cases h : k0 = k
      · subst h
        simp [setKey, lookupKey, hkk]
      · by_cases h' : k0 = k'
        · subst h'
          simp [setKey, Ne.symm hkk, lookupKey]
        · simp [setKey, h, lookupKey, h', lookupKey_setKey_other rest k v k' hkk]

theorem aggForest_iff_forall : ∀ l : List DiffTreeNode, AggForest l ↔ ∀ c ∈ l, AggNode c
  | [] => by simp [AggForest]
  | c :: cs => by
      simp only [AggForest, List.mem_cons]
      rw [aggForest_iff_forall cs]
      constructor
      · rintro ⟨h1, h2⟩ x (rfl | hx)
        · exact h1
        · exact h2 x hx
      · intro h
        exact ⟨h c (Or.inl rfl), fun x hx => h x (Or.inr hx)⟩

theorem aggForest_of_perm {l l' : List DiffTreeNode} (hp : l.Perm l') (h : AggForest l) :
    AggForest l' := by
  rw [aggForest_iff_forall] at h ⊢
  exact fun c hc => h c (hp.symm.subset hc)

mutual

theorem aggNode_convertNode (lcmp : String → String → Ordering) :
    ∀ nd : BNode, AggNode (convertNode lcmp nd)
  | .file n p id c a d => by
      show AggNode (.file n p id c a d)
      exact trivial
  | .dir n p a d cm => by
      have h := aggForest_convertMap lcmp cm
      show AggNode (.dir n p (List.insertionSort (nodeLe lcmp) (convertMap lcmp cm)) _ _)
      exact ⟨rfl, rfl, aggForest_of_perm (List.perm_insertionSort _ _).symm h⟩

theorem aggForest_convertMap (lcmp : String → String → Ordering) :
    ∀ m : BMap, AggForest (convertMap lcmp m)
  | [] => trivial
  | (_, nd) :: rest => ⟨aggNode_convertNode lcmp nd, aggForest_convertMap lcmp rest⟩

end

theorem aggForest_toArray (lcmp : String → String → Ordering) (m : BMap) :
    AggForest (toArray lcmp m) :=
  aggForest_of_perm (List.perm_insertionSort _ _).symm (aggForest_convertMap lcmp m)

/-- Claim C2: in every forest returned by `buildDiffTree` (for any locale
comparator), every directory node at every depth has its add equal to the
sum of its direct children add counts and its del equal to the sum of the
del counts, recursively down to the file leaves. -/
theorem claim_c2_exact_aggregation (lcmp : String → String → Ordering)
    (stats : List FileStat) : AggForest (buildDiffTree lcmp stats) :=
  aggForest_toArray lcmp (buildRoot stats)

theorem insertParts_converts_file (m : BMap) (part p2 : String) (rest : List String)
    (cur id : String) (ch : DiffChangeKind) (a d : Nat) (n p fid : String)
    (fch : DiffChangeKind) (fa fd : Nat)
    (hlook : lookupKey m part = some (.file n p fid fch fa fd)) :
    insertParts id ch a d (part :: p2 :: rest) cur m =
      setKey m part (.dir part (jsJoin cur part) fa fd
        (insertParts id ch a d (p2 :: rest) (jsJoin cur part) [])) := by
  simp [insertParts, hlook]

/-- Claim C1, amended: when a non-terminal segment of an inserted stat hits
a position holding a file node, the build phase replaces it with a directory
node whose add/del carry forward the file counts (first conjunct, reading
the converted entry back from the updated map); but the final aggregation
pass recomputes every directory add/del as the sums over its direct children
alone, so the carried counts are absent from the returned forest (second
conjunct). -/
theorem claim_c1_conversion_carry_forward :
    (∀ (m : BMap) (part p2 : String) (rest : List String) (cur id : String)
       (ch : DiffChangeKind) (a d : Nat) (n p fid : String) (fch : DiffChangeKind)
       (fa fd : Nat),
       lookupKey m part = some (.file n p fid fch fa fd) →
       lookupKey (insertParts id ch a d (part :: p2 :: rest) cur m) part =
         some (.dir part (jsJoin cur part) fa fd
           (insertParts id ch a d (p2 :: rest) (jsJoin cur part) []))) ∧
    (∀ (lcmp : String → String → Ordering) (stats : List FileStat),
       AggForest (buildDiffTree lcmp stats)) := by
  constructor
  · intro m part p2 rest cur id ch a d n p fid fch fa fd hlook
    rw [insertParts_converts_file m part p2 rest cur id ch a d n p fid fch fa fd hlook]
    exact lookupKey_setKey_self m part _
  · exact fun lcmp stats => aggForest_toArray lcmp (buildRoot stats)

/-- Claim C1 as stated is false: on `exC1` the position `a` first holds a
file with counts (5,1) and is then required to act as a directory, but in
the returned forest the directory aggregate is (2,0) — the children sums
alone — not (7,1) as carrying the replaced file counts into the final
aggregate would give. -/
theorem claim_c1_counterexample :
    buildDiffTree strCmp exC1 =
      [ .dir "a" "a" [ .file "b" "a/b" "a/b" .modified 2 0 ] 2 0 ] ∧
    ¬ (sumAdd (buildDiffTree strCmp exC1) = 5 + 2 ∧
       sumDel (buildDiffTree strCmp exC1) = 1 + 0) := by
  constructor
  · rfl
  · intro h
    have heq : sumAdd (buildDiffTree strCmp exC1) = 2 := rfl
    have h7 := h.1
    rw [heq] at h7
    omega

theorem claim_c1_conversion_carry_forward_witness :
    lookupKey (insertParts "a/b" .modified 2 0 ["a", "b"] ""
        [("a", .file "a" "a" "a" .modified 5 1)]) "a" =
      some (.dir "a" "a" 5 1 (insertParts "a/b" .modified 2 0 ["b"] "a" [])) ∧
    AggForest (buildDiffTree strCmp exC1) :=
  ⟨claim_c1_conversion_carry_forward.1 [("a", .file "a" "a" "a" .modified 5 1)]
      "a" "b" [] "" "a/b" .modified 2 0 "a" "a" "a" .modified 5 1 rfl,
    claim_c1_conversion_carry_forward.2 strCmp exC1⟩

theorem sortedAll_iff_forall (lcmp : String → String → Ordering) :
    ∀ l : List DiffTreeNode, SortedAll lcmp l ↔ ∀ c ∈ l, SortedNode lcmp c
  | [] => by simp [SortedAll]
  | c :: cs => by
      simp only [SortedAll, List.mem_cons]
      rw [sortedAll_iff_forall lcmp cs]
      constructor
      · rintro ⟨h1, h2⟩ x (rfl | hx)
        · exact h1
        · exact h2 x hx
      · intro h
        exact ⟨h c (Or.inl rfl), fun x hx => h x (Or.inr hx)⟩

theorem sortedAll_of_perm (lcmp : String → String → Ordering)
    {l l' : List DiffTreeNode} (hp : l.Perm l') (h : SortedAll lcmp l) :
    SortedAll lcmp l' := by
  rw [sortedAll_iff_forall] at h ⊢
  exact fun c hc => h c (hp.symm.subset hc)

theorem nodeCmp_same (lcmp : String → String → Ordering) (a b : DiffTreeNode)
    (h : nodeIsDir a = nodeIsDir b) :
    nodeCmp lcmp a b = lcmp (nodeName a) (nodeName b) := by
  simp [nodeCmp, h]

theorem nodeCmp_dir_file (lcmp : String → String → Ordering) (a b : DiffTreeNode)
    (ha : nodeIsDir a = true) (hb : nodeIsDir b = false) :
    nodeCmp lcmp a b = Ordering.lt := by
  simp [nodeCmp, ha, hb]

theorem nodeCmp_file_dir (lcmp : String → String → Ordering) (a b : DiffTreeNode)
    (ha : nodeIsDir a = false) (hb : nodeIsDir b = true) :
    nodeCmp lcmp a b = Ordering.gt := by
  simp [nodeCmp, ha, hb]

theorem nodeLe_total (lcmp : String → String → Ordering)
    (htot : ∀ x y, lcmp x y = Ordering.gt → lcmp y x ≠ Ordering.gt)
    (a b : DiffTreeNode) : nodeLe lcmp a b ∨ nodeLe lcmp b a := by
  cases ha : nodeIsDir a <;> cases hb : nodeIsDir b
  · by_cases h : lcmp (nodeName a) (nodeName b) = Ordering.gt
    · right
      show nodeCmp lcmp b a ≠ Ordering.gt
      rw [nodeCmp_same lcmp b a (hb.trans ha.symm)]
      exact htot _ _ h
    · left
      show nodeCmp lcmp a b ≠ Ordering.gt
      rw [nodeCmp_same lcmp a b (ha.trans hb.symm)]
      exact h
  · right
    show nodeCmp lcmp b a ≠ Ordering.gt
    rw [nodeCmp_dir_file lcmp b a hb ha]
    simp
  · left
    show nodeCmp lcmp a b ≠ Ordering.gt
    rw [nodeCmp_dir_file lcmp a b ha hb]
    simp
  · by_cases h : lcmp (nodeName a) (nodeName b) = Ordering.gt
    · right
      show nodeCmp lcmp b a ≠ Ordering.gt
      rw [nodeCmp_same lcmp b a (hb.trans ha.symm)]
      exact htot _ _ h
    · left
      show nodeCmp lcmp a b ≠ Ordering.gt
      rw [nodeCmp_same lcmp a b (ha.trans hb.symm)]
      exact h

theorem nodeLe_trans (lcmp : String → String → Ordering)
    (htrans : ∀ x y z, lcmp x y ≠ Ordering.gt → lcmp y z ≠ Ordering.gt →
      lcmp x z ≠ Ordering.gt)
    (a b c : DiffTreeNode) (h1 : nodeLe lcmp a b) (h2 : nodeLe lcmp b c) :
    nodeLe lcmp a c := by
  have h1' : nodeCmp lcmp a b ≠ Ordering.gt := h1
  have h2' : nodeCmp lcmp b c ≠ Ordering.gt := h2
  show nodeCmp lcmp a c ≠ Ordering.gt
  cases ha : nodeIsDir a <;> cases hb : nodeIsDir b <;> cases hc : nodeIsDir c
  · rw [nodeCmp_same lcmp a b (ha.trans hb.symm)] at h1'
    rw [nodeCmp_same lcmp b c (hb.trans hc.symm)] at h2'
    rw [nodeCmp_same lcmp a c (ha.trans hc.symm)]
    exact htrans _ _ _ h1' h2'
  · exact absurd (nodeCmp_file_dir lcmp b c hb hc) h2'
  · exact absurd (nodeCmp_file_dir lcmp a b ha hb) h1'
  · exact absurd (nodeCmp_file_dir lcmp a b ha hb) h1'
  · rw [nodeCmp_dir_file lcmp a c ha hc]
    simp
  · exact absurd (nodeCmp_file_dir lcmp b c hb hc) h2'
  · rw [nodeCmp_dir_file lcmp a c ha hc]
    simp
  · rw [nodeCmp_same lcmp a b (ha.trans hb.symm)] at h1'
    rw [nodeCmp_same lcmp b c (hb.trans hc.symm)] at h2'
    rw [nodeCmp_same lcmp a c (ha.trans hc.symm)]
    exact htrans _ _ _ h1' h2'

mutual

theorem sortedNode_convertNode (lcmp : String → String → Ordering)
    (htot : ∀ x y, lcmp x y = Ordering.gt → lcmp y x ≠ Ordering.gt)
    (htrans : ∀ x y z, lcmp x y ≠ Ordering.gt → lcmp y z ≠ Ordering.gt →
      lcmp x z ≠ Ordering.gt) :
    ∀ nd : BNode, SortedNode lcmp (convertNode lcmp nd)
  | .file n p id c a d => by
      show SortedNode lcmp (.file n p id c a d)
      exact trivial
  | .dir n p a d cm => by
      have h := sortedAll_convertMap lcmp htot htrans cm
      show SortedNode lcmp (.dir n p (List.insertionSort (nodeLe lcmp) (convertMap lcmp cm)) _ _)
      refine ⟨?_, sortedAll_of_perm lcmp (List.perm_insertionSort _ _).symm h⟩
      haveI : IsTotal DiffTreeNode (nodeLe lcmp) := ⟨nodeLe_total lcmp htot⟩
      haveI : IsTrans DiffTreeNode (nodeLe lcmp) := ⟨nodeLe_trans lcmp htrans⟩
      exact List.sorted_insertionSort _ _

theorem sortedAll_convertMap (lcmp : String → String → Ordering)
    (htot : ∀ x y, lcmp x y = Ordering.gt → lcmp y x ≠ Ordering.gt)
    (htrans : ∀ x y z, lcmp x y ≠ Ordering.gt → lcmp y z ≠ Ordering.gt →
      lcmp x z ≠ Ordering.gt) :
    ∀ m : BMap, SortedAll lcmp (convertMap lcmp m)
  | [] => trivial
  | (_, nd) :: rest =>
      ⟨sortedNode_convertNode lcmp htot htrans nd,
        sortedAll_convertMap lcmp htot htrans rest⟩

end

/-- Claim C4: for any locale comparator that is antisymmetric and
transitive in the comparator sense, every sibling group of the forest
returned by `buildDiffTree` — the top-level forest and the children of
every directory — is pairwise ordered by the comparator order: every
directory node precedes every file node, and within a type names ascend
in comparator order.  In particular a root directory sorts before a root
file whatever their names compare. -/
theorem claim_c4_sibling_ordering (lcmp : String → String → Ordering)
    (htot : ∀ x y, lcmp x y = Ordering.gt → lcmp y x ≠ Ordering.gt)
    (htrans : ∀ x y z, lcmp x y ≠ Ordering.gt → lcmp y z ≠ Ordering.gt →
      lcmp x z ≠ Ordering.gt)
    (stats : List FileStat) : SortedSib lcmp (buildDiffTree lcmp stats) := by
  constructor
  · haveI : IsTotal DiffTreeNode (nodeLe lcmp) := ⟨nodeLe_total lcmp htot⟩
    haveI : IsTrans DiffTreeNode (nodeLe lcmp) := ⟨nodeLe_trans lcmp htrans⟩
    exact List.sorted_insertionSort _ _
  · exact sortedAll_of_perm lcmp (List.perm_insertionSort _ _).symm
      (sortedAll_convertMap lcmp htot htrans (buildRoot stats))

theorem strCmp_antisymm (x y : String) : strCmp x y = Ordering.gt → strCmp y x ≠ Ordering.gt := by
  intro h
  have hsymm := @Batteries.OrientedCmp.symm String compare inferInstance x y
  unfold strCmp at h ⊢
  rw [h] at hsymm
  cases hyx : compare y x <;> rw [hyx] at hsymm <;> simp [Ordering.swap] at hsymm ⊢

theorem strCmp_le_trans (x y z : String) :
    strCmp x y ≠ Ordering.gt → strCmp y z ≠ Ordering.gt → strCmp x z ≠ Ordering.gt := by
  unfold strCmp
  exact fun h1 h2 => Batteries.TransCmp.le_trans h1 h2

theorem claim_c4_sibling_ordering_witness :
    SortedSib strCmp (buildDiffTree strCmp exScen2) ∧
    buildDiffTree strCmp exScen2 =
      [ .dir "src" "src" [ .file "a.ts" "src/a.ts" "src/a.ts" .modified 2 0 ] 2 0,
        .file "README.md" "README.md" "README.md" .modified 1 0 ] :=
  ⟨claim_c4_sibling_ordering strCmp strCmp_antisymm strCmp_le_trans exScen2, rfl⟩

theorem insertStat_empty_segs (m : BMap) (s : FileStat) (h : segsOf s.path = []) :
    insertStat m s = m := by
  unfold insertStat
  rw [h]
  rfl

/-- Claim C9: a stat whose path has no non-empty segment creates no node:
removing it from the input leaves the returned forest unchanged, for any
comparator and any surrounding stats. -/
theorem claim_c9_empty_path_vanishes (lcmp : String → String → Ordering)
    (pre post : List FileStat) (s : FileStat) (h : segsOf s.path = []) :
    buildDiffTree lcmp (pre ++ s :: post) = buildDiffTree lcmp (pre ++ post) := by
  unfold buildDiffTree buildRoot
  rw [List.foldl_append, List.foldl_append, List.foldl_cons,
    insertStat_empty_segs (List.foldl insertStat [] pre) s h]

theorem claim_c9_empty_path_vanishes_witness :
    buildDiffTree strCmp
        [ { id := "x", path := "x", change := .modified, add := 1, del := 0 },
          { id := "//", path := "//", change := .modified, add := 9, del := 9 },
          { id := "y", path := "y", change := .added, add := 2, del := 0 } ] =
      buildDiffTree strCmp
        [ { id := "x", path := "x", change := .modified, add := 1, del := 0 },
          { id := "y", path := "y", change := .added, add := 2, del := 0 } ] :=
  claim_c9_empty_path_vanishes strCmp
    [ { id := "x", path := "x", change := .modified, add := 1, del := 0 } ]
    [ { id := "y", path := "y", change := .added, add := 2, del := 0 } ]
    { id := "//", path := "//", change := .modified, add := 9, del := 9 }
    (by decide)

theorem insertStat_congr (m : BMap) (s t : FileStat) (hid : s.id = t.id)
    (hch : s.change = t.change) (ha : s.add = t.add) (hd : s.del = t.del)
    (hsegs : segsOf s.path = segsOf t.path) : insertStat m s = insertStat m t := by
  unfold insertStat
  rw [hid, hch, ha, hd, hsegs]

theorem buildFold_congr :
    ∀ {s1 s2 : List FileStat},
      List.Forall₂ (fun s t => s.id = t.id ∧ s.change = t.change ∧ s.add = t.add ∧
        s.del = t.del ∧ segsOf s.path = segsOf t.path) s1 s2 →
      ∀ m : BMap, List.foldl insertStat m s1 = List.foldl insertStat m s2 := by
  intro s1 s2 h
  induction h with
  | nil => intro m; rfl
  | cons hst hrest ih =>
      intro m
      rw [List.foldl_cons, List.foldl_cons,
        insertStat_congr m _ _ hst.1 hst.2.1 hst.2.2.1 hst.2.2.2.1 hst.2.2.2.2]
      exact ih _

/-- Claim C8: the builder output depends on a stat path only through its
list of non-empty segments, so inputs that differ only by leading or
duplicated slash separators (or any other change preserving the non-empty
segments) produce identical forests — in particular a stat at `/a/b.txt`
occupies the same tree position as one at `a/b.txt`. -/
theorem claim_c8_path_normalization (lcmp : String → String → Ordering)
    (s1 s2 : List FileStat)
    (h : List.Forall₂ (fun s t => s.id = t.id ∧ s.change = t.change ∧ s.add = t.add ∧
      s.del = t.del ∧ segsOf s.path = segsOf t.path) s1 s2) :
    buildDiffTree lcmp s1 = buildDiffTree lcmp s2 := by
  unfold buildDiffTree buildRoot
  rw [buildFold_congr h []]

theorem claim_c8_path_normalization_witness :
    buildDiffTree strCmp
        [ { id := "a/b.txt", path := "/a//b.txt", change := .modified, add := 3, del := 1 } ] =
      buildDiffTree strCmp
        [ { id := "a/b.txt", path := "a/b.txt", change := .modified, add := 3, del := 1 } ] :=
  claim_c8_path_normalization strCmp _ _
    (List.Forall₂.cons ⟨rfl, rfl, rfl, rfl, by decide⟩ List.Forall₂.nil)

theorem toFileStatsFrom_length (gen : LineCounter) :
    ∀ (ds : List Diff) (i : Nat), (toFileStatsFrom gen i ds).length = ds.length
  | [], _ => rfl
  | _ :: ds, i => by
      simp [toFileStatsFrom, toFileStatsFrom_length gen ds (i + 1)]

theorem toFileStatsFrom_getElem (gen : LineCounter) :
    ∀ (ds : List Diff) (i j : Nat),
      (toFileStatsFrom gen i ds)[j]? = (ds[j]?).map (fun d => statOfDiff gen (i + j) d)
  | [], i, j => by simp [toFileStatsFrom]
  | d :: ds, i, 0 => by simp [toFileStatsFrom]
  | d :: ds, i, j + 1 => by
      simp only [toFileStatsFrom, List.getElem?_cons_succ,
        toFileStatsFrom_getElem gen ds (i + 1) j]
      rw [show i + 1 + j = i + (j + 1) by omega]

theorem jsOrStr_falsy (a : Option String) (b : String)
    (h : a = none ∨ a = some "") : jsOrStr a b = b := by
  rcases h with rfl | rfl <;> simp [jsOrStr]

theorem digitChar_ne_slash (m : Nat) : Nat.digitChar m ≠ '/' := by
  rcases Nat.lt_or_ge m 16 with h | h
  · interval_cases m <;> decide
  · unfold Nat.digitChar
    repeat rw [if_neg (by omega)]
    decide

theorem toDigitsCore_ne_slash :
    ∀ (fuel n : Nat) (ds : List Char), (∀ c ∈ ds, c ≠ '/') →
      ∀ c ∈ Nat.toDigitsCore 10 fuel n ds, c ≠ '/'
  | 0, n, ds, hds => hds
  | fuel + 1, n, ds, hds => by
      have hcons : ∀ c ∈ Nat.digitChar (n % 10) :: ds, c ≠ '/' := by
        intro c hc
        rcases List.mem_cons.mp hc with rfl | hc
        · exact digitChar_ne_slash _
        · exact hds c hc
      unfold Nat.toDigitsCore
      dsimp only
      split
      · exact hcons
      · exact toDigitsCore_ne_slash fuel (n / 10) _ hcons

theorem toString_nat_ne_slash (n : Nat) : ∀ c ∈ (toString n).data, c ≠ '/' := by
  show ∀ c ∈ (Nat.toDigits 10 n).asString.data, c ≠ '/'
  intro c hc
  exact toDigitsCore_ne_slash (n + 1) n [] (by simp) c hc

theorem stripLeadingSlashes_eq_self (s : String) (h : ∀ c ∈ s.data, c ≠ '/') :
    stripLeadingSlashes s = s := by
  unfold stripLeadingSlashes
  have hdrop : s.data.dropWhile (fun c => c = '/') = s.data := by
    cases hd : s.data with
    | nil => rfl
    | cons c cs =>
        rw [List.dropWhile_cons]
        have hc : c ≠ '/' := h c (by rw [hd]; exact List.mem_cons_self c cs)
        simp [hc]
  rw [hdrop]

/-- Claim C5: when the external line counter fails (throws) on a record,
`toFileStats` still yields a stat for that record, with add and del both
zero; the extractor is a total function, so no error value reaches the
caller. -/
theorem claim_c5_failure_absorption (gen : LineCounter) (diffs : List Diff)
    (i : Nat) (d : Diff) (hd : diffs[i]? = some d)
    (hfail : gen (jsOrStr d.oldPath (jsOrStr d.newPath "unknown"))
      (jsOrStr d.oldContent "")
      (jsOrStr d.newPath (jsOrStr d.oldPath "unknown"))
      (jsOrStr d.newContent "") = none) :
    (toFileStats gen diffs)[i]? = some (statOfDiff gen i d) ∧
    (statOfDiff gen i d).add = 0 ∧ (statOfDiff gen i d).del = 0 := by
  have hcompute : computeAddDelForDiff gen d = (0, 0) := by
    unfold computeAddDelForDiff
    rw [hfail]
  refine ⟨?_, ?_, ?_⟩
  · unfold toFileStats
    rw [toFileStatsFrom_getElem gen diffs 0 i, hd]
    simp
  · simp [statOfDiff, hcompute]
  · simp [statOfDiff, hcompute]

theorem claim_c5_failure_absorption_witness :
    (toFileStats genNone [dNull])[0]? = some (statOfDiff genNone 0 dNull) ∧
    (statOfDiff genNone 0 dNull).add = 0 ∧ (statOfDiff genNone 0 dNull).del = 0 :=
  claim_c5_failure_absorption genNone [dNull] 0 dNull rfl rfl

/-- Claim C7: the extractor is order-preserving with one stat per record
(first conjunct: lengths agree; second conjunct characterises the entry at
any index); a record with neither old nor new path at index `i` yields a
stat whose id and path are the decimal string of `i`; and on a concrete run
the record at index 3 becomes a root-level file named `3` in the forest
(third conjunct). -/
theorem claim_c7_stat_extractor_contract :
    (∀ (gen : LineCounter) (diffs : List Diff),
      (toFileStats gen diffs).length = diffs.length) ∧
    (∀ (gen : LineCounter) (diffs : List Diff) (i : Nat) (d : Diff),
      diffs[i]? = some d →
      (d.newPath = none ∨ d.newPath = some "") →
      (d.oldPath = none ∨ d.oldPath = some "") →
      (toFileStats gen diffs)[i]? =
        some { id := toString i, path := toString i, change := d.change,
               add := (computeAddDelForDiff gen d).1,
               del := (computeAddDelForDiff gen d).2 }) ∧
    buildDiffTree strCmp (toFileStats genNone [dNull, dNull, dNull, dNull]) =
      [ .file "0" "0" "0" .added 0 0, .file "1" "1" "1" .added 0 0,
        .file "2" "2" "2" .added 0 0, .file "3" "3" "3" .added 0 0 ] := by
  refine ⟨?_, ?_, rfl⟩
  · intro gen diffs
    exact toFileStatsFrom_length gen diffs 0
  · intro gen diffs i d hd hnew hold
    unfold toFileStats
    rw [toFileStatsFrom_getElem gen diffs 0 i, hd]
    have hid : jsOrStr d.newPath (jsOrStr d.oldPath (toString i)) = toString i := by
      rw [jsOrStr_falsy _ _ hnew, jsOrStr_falsy _ _ hold]
    rw [Option.map_some']
    simp only [Nat.zero_add]
    unfold statOfDiff
    rw [hid, stripLeadingSlashes_eq_self _ (toString_nat_ne_slash i)]

theorem claim_c7_stat_extractor_contract_witness :
    (toFileStats genNone [dNull, dNull]).length = 2 ∧
    (toFileStats genNone [dNull, dNull, dNull, dNull])[3]? =
      some { id := "3", path := "3", change := .added, add := 0, del := 0 } := by
  constructor
  · rw [claim_c7_stat_extractor_contract.1 genNone [dNull, dNull]]
    rfl
  · have h := claim_c7_stat_extractor_contract.2.1 genNone [dNull, dNull, dNull, dNull]
      3 dNull rfl (Or.inl rfl) (Or.inl rfl)
    exact h

theorem findPath_nil : ∀ parts : List String, findPath [] parts = none
  | [] => rfl
  | [_] => rfl
  | _ :: _ :: _ => rfl

theorem findPath_setKey_other (m : BMap) (k : String) (v : BNode) (q : String)
    (qs : List String) (hqk : k ≠ q) :
    findPath (setKey m k v) (q :: qs) = findPath m (q :: qs) := by
  cases qs with
  | nil =>
      show lookupKey (setKey m k v) q = lookupKey m q
      exact lookupKey_setKey_other m k v q hqk
  | cons q2 rest =>
      simp only [findPath]
      rw [lookupKey_setKey_other m k v q hqk]

theorem findPath_insertParts_self :
    ∀ (parts : List String) (cur : String) (m : BMap) (id : String)
      (ch : DiffChangeKind) (a d : Nat), parts ≠ [] →
      findPath (insertParts id ch a d parts cur m) parts =
        some (.file (parts.getLastD "") (parts.foldl jsJoin cur) id ch a d)
  | [], _, _, _, _, _, _, h => absurd rfl h
  | [part], cur, m, id, ch, a, d, _ => by
      show findPath (setKey m part (.file part (jsJoin cur part) id ch a d)) [part] = _
      show lookupKey (setKey m part (.file part (jsJoin cur part) id ch a d)) part = _
      rw [lookupKey_setKey_self]
      rfl
  | part :: p2 :: rest, cur, m, id, ch, a, d, _ => by
      have hrec := fun cm => findPath_insertParts_self (p2 :: rest) (jsJoin cur part) cm
        id ch a d (by simp)
      rcases hl : lookupKey m part with _ | nd
      · simp only [insertParts, hl, findPath, lookupKey_setKey_self]
        rw [hrec []]
        rfl
      · cases nd with
        | file fn fp fid fch fa fd =>
            simp only [insertParts, hl, findPath, lookupKey_setKey_self]
            rw [hrec []]
            rfl
        | dir dn dp da dd cm =>
            simp only [insertParts, hl, findPath, lookupKey_setKey_self]
            rw [hrec cm]
            rfl

theorem findPath_insertParts_of_incomp :
    ∀ (partsI parts : List String) (cur : String) (m : BMap) (id : String)
      (ch : DiffChangeKind) (a d : Nat),
      SegIncomp partsI parts →
      findPath (insertParts id ch a d partsI cur m) parts = findPath m parts
  | [], _, _, _, _, _, _, _, h => absurd List.nil_prefix h.1
  | [p], parts, cur, m, id, ch, a, d, h => by
      cases parts with
      | nil => exact absurd List.nil_prefix h.2
      | cons q qs =>
          have hpq : p ≠ q := by
            intro he
            subst he
            cases qs with
            | nil => exact h.1 List.prefix_rfl
            | cons q2 qs' => exact h.1 (List.cons_prefix_cons.mpr ⟨rfl, List.nil_prefix⟩)
          show findPath (setKey m p (.file p (jsJoin cur p) id ch a d)) (q :: qs) = _
          exact findPath_setKey_other m p _ q qs hpq
  | p :: p2 :: ps, parts, cur, m, id, ch, a, d, h => by
      cases parts with
      | nil => exact absurd List.nil_prefix h.2
      | cons q qs =>
          by_cases hpq : p = q
          · subst hpq
            cases qs with
            | nil => exact absurd (List.cons_prefix_cons.mpr ⟨rfl, List.nil_prefix⟩) h.2
            | cons q2 qs' =>
                have hinc : SegIncomp (p2 :: ps) (q2 :: qs') := by
                  constructor
                  · intro hp
                    exact h.1 (List.cons_prefix_cons.mpr ⟨rfl, hp⟩)
                  · intro hp
                    exact h.2 (List.cons_prefix_cons.mpr ⟨rfl, hp⟩)
                have hrec := fun (cm : BMap) => findPath_insertParts_of_incomp (p2 :: ps)
                  (q2 :: qs') (jsJoin cur p) cm id ch a d hinc
                rcases hl : lookupKey m p with _ | nd
                · simp only [insertParts, hl, findPath, lookupKey_setKey_self]
                  rw [hrec [], findPath_nil]
                · cases nd with
                  | file fn fp fid fch fa fd =>
                      simp only [insertParts, hl, findPath, lookupKey_setKey_self]
                      rw [hrec [], findPath_nil]
                  | dir dn dp da dd cm =>
                      simp only [insertParts, hl, findPath, lookupKey_setKey_self]
                      rw [hrec cm]
          · rcases hl : lookupKey m p with _ | nd
            · simp only [insertParts, hl]
              exact findPath_setKey_other m p _ q qs hpq
            · cases nd with
              | file fn fp fid fch fa fd =>
                  simp only [insertParts, hl]
                  exact findPath_setKey_other m p _ q qs hpq
              | dir dn dp da dd cm =>
                  simp only [insertParts, hl]
                  exact findPath_setKey_other m p _ q qs hpq

theorem findPath_foldl_insertStat_of_incomp :
    ∀ (post : List FileStat) (m : BMap) (parts : List String),
      (∀ t ∈ post, SegIncomp (segsOf t.path) parts) →
      findPath (List.foldl insertStat m post) parts = findPath m parts
  | [], m, parts, _ => rfl
  | t :: ts, m, parts, h => by
      rw [List.foldl_cons]
      rw [findPath_foldl_insertStat_of_incomp ts (insertStat m t) parts
        (fun u hu => h u (List.mem_cons_of_mem t hu))]
      exact findPath_insertParts_of_incomp (segsOf t.path) parts "" m t.id t.change
        t.add t.del (h t (List.mem_cons_self t ts))

theorem findPath_buildRoot (pre post : List FileStat) (s : FileStat)
    (hne : segsOf s.path ≠ [])
    (hpost : ∀ t ∈ post, SegIncomp (segsOf t.path) (segsOf s.path)) :
    findPath (buildRoot (pre ++ s :: post)) (segsOf s.path) =
      some (.file ((segsOf s.path).getLastD "") (joinSegs "" (segsOf s.path))
        s.id s.change s.add s.del) := by
  unfold buildRoot
  rw [List.foldl_append, List.foldl_cons]
  rw [findPath_foldl_insertStat_of_incomp post _ _ hpost]
  show findPath (insertParts s.id s.change s.add s.del (segsOf s.path) ""
    (List.foldl insertStat [] pre)) (segsOf s.path) = _
  exact findPath_insertParts_self (segsOf s.path) "" _ s.id s.change s.add s.del hne

theorem countMapB_setKey_absent : ∀ (m : BMap) (k : String) (v : BNode) (i : String),
    lookupKey m k = none →
    countMapB i (setKey m k v) = countMapB i m + countB i v
  | [], k, v, i, _ => by simp [setKey, countMapB]
  | (k0, v0) :: rest, k, v, i, h => by
      by_cases hk : k0 = k
      · rw [lookupKey, if_pos hk] at h
        exact absurd h (by simp)
      · rw [lookupKey, if_neg hk] at h
        simp only [setKey, if_neg hk, countMapB]
        rw [countMapB_setKey_absent rest k v i h]
        omega

theorem countMapB_setKey_present : ∀ (m : BMap) (k : String) (v old : BNode) (i : String),
    lookupKey m k = some old →
    countMapB i (setKey m k v) + countB i old = countMapB i m + countB i v
  | [], k, v, old, i, h => by simp [lookupKey] at h
  | (k0, v0) :: rest, k, v, old, i, h => by
      by_cases hk : k0 = k
      · rw [lookupKey, if_pos hk] at h
        injection h with h
        subst h
        simp only [setKey, if_pos hk, countMapB]
        omega
      · rw [lookupKey, if_neg hk] at h
        simp only [setKey, if_neg hk, countMapB]
        have := countMapB_setKey_present rest k v old i h
        omega

theorem countMapB_insertParts_le :
    ∀ (parts : List String) (cur : String) (m : BMap) (id : String)
      (ch : DiffChangeKind) (a d : Nat) (i : String),
      countMapB i (insertParts id ch a d parts cur m) ≤
        countMapB i m + (if id = i then 1 else 0)
  | [], _, m, _, _, _, _, _ => by
      show countMapB _ m ≤ _
      omega
  | [part], cur, m, id, ch, a, d, i => by
      show countMapB i (setKey m part (.file part (jsJoin cur part) id ch a d)) ≤ _
      have hv : countB i (.file part (jsJoin cur part) id ch a d) =
          (if id = i then 1 else 0) := rfl
      rcases hl : lookupKey m part with _ | old
      · rw [countMapB_setKey_absent m part _ i hl, hv]
      · have := countMapB_setKey_present m part
          (BNode.file part (jsJoin cur part) id ch a d) old i hl
        rw [hv] at this
        omega
  | p :: p2 :: ps, cur, m, id, ch, a, d, i => by
      have hrec := fun (cm : BMap) =>
        countMapB_insertParts_le (p2 :: ps) (jsJoin cur p) cm id ch a d i
      rcases hl : lookupKey m p with _ | nd
      · simp only [insertParts, hl]
        rw [countMapB_setKey_absent m p _ i hl]
        have h1 : countB i (BNode.dir p (jsJoin cur p) 0 0
            (insertParts id ch a d (p2 :: ps) (jsJoin cur p) [])) =
            countMapB i (insertParts id ch a d (p2 :: ps) (jsJoin cur p) []) := rfl
        have h2 := hrec []
        have h3 : countMapB i ([] : BMap) = 0 := rfl
        omega
      · cases nd with
        | file fn fp fid fch fa fd =>
            simp only [insertParts, hl]
            have := countMapB_setKey_present m p (BNode.dir p (jsJoin cur p) fa fd
              (insertParts id ch a d (p2 :: ps) (jsJoin cur p) []))
              (BNode.file fn fp fid fch fa fd) i hl
            have h1 : countB i (BNode.dir p (jsJoin cur p) fa fd
                (insertParts id ch a d (p2 :: ps) (jsJoin cur p) [])) =
                countMapB i (insertParts id ch a d (p2 :: ps) (jsJoin cur p) []) := rfl
            have h2 := hrec []
            have h3 : countMapB i ([] : BMap) = 0 := rfl
            omega
        | dir dn dp da dd cm =>
            simp only [insertParts, hl]
            have := countMapB_setKey_present m p (BNode.dir dn dp da dd
              (insertParts id ch a d (p2 :: ps) (jsJoin cur p) cm))
              (BNode.dir dn dp da dd cm) i hl
            have h1 : countB i (BNode.dir dn dp da dd
                (insertParts id ch a d (p2 :: ps) (jsJoin cur p) cm)) =
                countMapB i (insertParts id ch a d (p2 :: ps) (jsJoin cur p) cm) := rfl
            have h2 : countB i (BNode.dir dn dp da dd cm) = countMapB i cm := rfl
            have h3 := hrec cm
            omega

theorem countMapB_foldl_le :
    ∀ (stats : List FileStat) (m : BMap) (i : String),
      countMapB i (List.foldl insertStat m stats) ≤
        countMapB i m + (stats.filter (fun t => t.id = i)).length
  | [], m, i => by simp
  | t :: ts, m, i => by
      rw [List.foldl_cons]
      have h1 := countMapB_foldl_le ts (insertStat m t) i
      have h2 : countMapB i (insertStat m t) ≤
          countMapB i m + (if t.id = i then 1 else 0) :=
        countMapB_insertParts_le (segsOf t.path) "" m t.id t.change t.add t.del i
      by_cases ht : t.id = i
      · rw [List.filter_cons_of_pos (by simp [ht])]
        rw [if_pos ht] at h2
        simp only [List.length_cons]
        omega
      · rw [List.filter_cons_of_neg (by simp [ht])]
        rw [if_neg ht] at h2
        omega

theorem countB_lookup_le : ∀ (m : BMap) (k : String) (v : BNode) (i : String),
    lookupKey m k = some v → countB i v ≤ countMapB i m
  | [], k, v, i, h => by simp [lookupKey] at h
  | (k0, v0) :: rest, k, v, i, h => by
      by_cases hk : k0 = k
      · rw [lookupKey, if_pos hk] at h
        injection h with h
        show countB i v ≤ countB i v0 + countMapB i rest
        rw [← h]
        omega
      · rw [lookupKey, if_neg hk] at h
        have := countB_lookup_le rest k v i h
        show countB i v ≤ countB i v0 + countMapB i rest
        omega

theorem findPath_countB_le :
    ∀ (parts : List String) (m : BMap) (nd : BNode) (i : String),
      findPath m parts = some nd → countB i nd ≤ countMapB i m
  | [], m, nd, i, h => by simp [findPath] at h
  | [p], m, nd, i, h => countB_lookup_le m p nd i h
  | p :: q :: rest, m, nd, i, h => by
      revert h
      show (match lookupKey m p with
        | some (.dir _ _ _ _ cm) => findPath cm (q :: rest)
        | _ => none) = some nd → _
      rcases hl : lookupKey m p with _ | mid
      · intro h
        exact absurd h (by simp)
      · cases mid with
        | file _ _ _ _ _ _ =>
            intro h
            exact absurd h (by simp)
        | dir dn dp da dd cm =>
            intro h
            have h1 := findPath_countB_le (q :: rest) cm nd i h
            have h2 : countB i (BNode.dir dn dp da dd cm) = countMapB i cm := rfl
            have h3 := countB_lookup_le m p (BNode.dir dn dp da dd cm) i hl
            omega

theorem countIdForest_eq_sum (i : String) :
    ∀ l : List DiffTreeNode, countIdForest i l = (l.map (countIdNode i)).sum
  | [] => rfl
  | c :: cs => by
      simp only [countIdForest, List.map_cons, List.sum_cons,
        countIdForest_eq_sum i cs]

theorem countIdForest_perm (i : String) {l l' : List DiffTreeNode}
    (hp : l.Perm l') : countIdForest i l = countIdForest i l' := by
  rw [countIdForest_eq_sum, countIdForest_eq_sum]
  exact (hp.map (countIdNode i)).sum_eq

mutual

theorem countIdNode_convertNode (lcmp : String → String → Ordering) (i : String) :
    ∀ nd : BNode, countIdNode i (convertNode lcmp nd) = countB i nd
  | .file n p id c a d => rfl
  | .dir n p a d cm => by
      show countIdForest i (List.insertionSort (nodeLe lcmp) (convertMap lcmp cm)) =
        countMapB i cm
      rw [countIdForest_perm i (List.perm_insertionSort (nodeLe lcmp) (convertMap lcmp cm))]
      exact countIdForest_convertMap lcmp i cm

theorem countIdForest_convertMap (lcmp : String → String → Ordering) (i : String) :
    ∀ m : BMap, countIdForest i (convertMap lcmp m) = countMapB i m
  | [] => rfl
  | (_, nd) :: rest => by
      show countIdNode i (convertNode lcmp nd) + countIdForest i (convertMap lcmp rest) = _
      rw [countIdNode_convertNode lcmp i nd, countIdForest_convertMap lcmp i rest]
      rfl

end

theorem countIdForest_buildDiffTree (lcmp : String → String → Ordering)
    (i : String) (stats : List FileStat) :
    countIdForest i (buildDiffTree lcmp stats) = countMapB i (buildRoot stats) := by
  unfold buildDiffTree toArray
  rw [countIdForest_perm i (List.perm_insertionSort (nodeLe lcmp) _)]
  exact countIdForest_convertMap lcmp i (buildRoot stats)

/-- Claim C3, amended: a stat `s` with a non-empty normalized path whose
segment list is incomparable (neither a prefix nor an extension) with the
segment list of every later stat, and whose id no other stat carries,
appears exactly once as a file leaf in the returned forest.  The exceptions
are forced: a later stat at the very same path overwrites the leaf, a later
stat extending the path converts the leaf to a directory, a later stat whose
path is a prefix of the leaf path deletes the whole subtree holding it, and
an empty path never creates a node. -/
theorem claim_c3_leaf_id_exactly_once (lcmp : String → String → Ordering)
    (pre post : List FileStat) (s : FileStat)
    (hne : segsOf s.path ≠ [])
    (hpost : ∀ t ∈ post, SegIncomp (segsOf t.path) (segsOf s.path))
    (hids : ∀ t ∈ pre ++ post, t.id ≠ s.id) :
    countIdForest s.id (buildDiffTree lcmp (pre ++ s :: post)) = 1 := by
  rw [countIdForest_buildDiffTree]
  have hge : 1 ≤ countMapB s.id (buildRoot (pre ++ s :: post)) := by
    have hf := findPath_buildRoot pre post s hne hpost
    have hcb := findPath_countB_le (segsOf s.path) (buildRoot (pre ++ s :: post))
      (.file ((segsOf s.path).getLastD "") (joinSegs "" (segsOf s.path))
        s.id s.change s.add s.del) s.id hf
    have hone : countB s.id (BNode.file ((segsOf s.path).getLastD "")
        (joinSegs "" (segsOf s.path)) s.id s.change s.add s.del) = 1 := by
      show (if s.id = s.id then 1 else 0) = 1
      rw [if_pos rfl]
    omega
  have hle := countMapB_foldl_le (pre ++ s :: post) [] s.id
  have hfilter : ((pre ++ s :: post).filter (fun t => t.id = s.id)).length = 1 := by
    rw [List.filter_append]
    have hpre : pre.filter (fun t => t.id = s.id) = [] := by
      rw [List.filter_eq_nil_iff]
      intro t ht
      simp only [decide_eq_true_eq]
      exact hids t (List.mem_append_left post ht)
    have hpostf : post.filter (fun t => t.id = s.id) = [] := by
      rw [List.filter_eq_nil_iff]
      intro t ht
      simp only [decide_eq_true_eq]
      exact hids t (List.mem_append_right pre ht)
    rw [hpre, List.filter_cons_of_pos (by simp), hpostf]
    rfl
  rw [hfilter] at hle
  have hm : countMapB s.id ([] : BMap) = 0 := rfl
  unfold buildRoot at hge ⊢
  omega

/-- Claim C3 as stated is false: in `exC3` no two stats share a path (so the
path-collision exception does not apply) and the id `a/b` occurs in the
input, yet the returned forest contains no file leaf with that id — the
later stat at the ancestor path `a` overwrote the subtree. -/
theorem claim_c3_counterexample :
    (exC3.map FileStat.path).Nodup ∧
    "a/b" ∈ exC3.map FileStat.id ∧
    countIdForest "a/b" (buildDiffTree strCmp exC3) = 0 := by
  refine ⟨by decide, by decide, rfl⟩

theorem claim_c3_leaf_id_exactly_once_witness :
    countIdForest "src/a.ts" (buildDiffTree strCmp
      [ { id := "src/a.ts", path := "src/a.ts", change := .modified, add := 5, del := 1 },
        { id := "src/b.ts", path := "src/b.ts", change := .modified, add := 2, del := 0 } ]) = 1 :=
  claim_c3_leaf_id_exactly_once strCmp []
    [ { id := "src/b.ts", path := "src/b.ts", change := .modified, add := 2, del := 0 } ]
    { id := "src/a.ts", path := "src/a.ts", change := .modified, add := 5, del := 1 }
    (by decide)
    (by
      intro t ht
      simp only [List.mem_singleton] at ht
      subst ht
      constructor
      · decide
      · decide)
    (by
      intro t ht
      simp only [List.nil_append, List.mem_singleton] at ht
      subst ht
      decide)

theorem findPath_append :
    ∀ (P : List String) (m : BMap) (R : List String), P ≠ [] → R ≠ [] →
      findPath m (P ++ R) =
        (match findPath m P with
          | some (.dir _ _ _ _ cm) => findPath cm R
          | _ => none)
  | [], _, _, h, _ => absurd rfl h
  | [p], m, R, _, hR => by
      cases R with
      | nil => exact absurd rfl hR
      | cons r rs =>
          show findPath m (p :: r :: rs) = _
          rcases hl : lookupKey m p with _ | nd
          · simp only [findPath, hl]
          · cases nd <;> simp only [findPath, hl]
  | p :: p2 :: ps, m, R, _, hR => by
      rcases hl : lookupKey m p with _ | nd
      · simp only [List.cons_append, findPath, hl]
      · cases nd with
        | file fn fp fid fch fa fd => simp only [List.cons_append, findPath, hl]
        | dir dn dp da dd cm =>
            simp only [List.cons_append, findPath, hl]
            exact findPath_append (p2 :: ps) cm R (by simp) hR

/-- Claim C10: when the full path of an inserted stat is the position of an
existing directory node, the insertion overwrites the directory object
wholesale: right after the insertion the position holds a single file leaf
with the stat data, and no position strictly below it holds any node, so
every previously inserted descendant is gone (first conjunct).  On the
example input with paths `a/b` then `a` the returned forest is a single
root file `a` and no node for `a/b` survives (second conjunct). -/
theorem claim_c10_file_overwrites_directory :
    (∀ (stats0 : List FileStat) (s : FileStat) (dn dp : String) (da dd : Nat)
       (cm : BMap), segsOf s.path ≠ [] →
       findPath (buildRoot stats0) (segsOf s.path) = some (.dir dn dp da dd cm) →
       findPath (insertStat (buildRoot stats0) s) (segsOf s.path) =
         some (.file ((segsOf s.path).getLastD "") (joinSegs "" (segsOf s.path))
           s.id s.change s.add s.del) ∧
       (∀ R : List String, R ≠ [] →
         findPath (insertStat (buildRoot stats0) s) (segsOf s.path ++ R) = none)) ∧
    buildDiffTree strCmp exC10 = [ .file "a" "a" "a" .deleted 2 3 ] := by
  constructor
  · intro stats0 s dn dp da dd cm hne _
    have hself : findPath (insertStat (buildRoot stats0) s) (segsOf s.path) =
        some (.file ((segsOf s.path).getLastD "") (joinSegs "" (segsOf s.path))
          s.id s.change s.add s.del) := by
      show findPath (insertParts s.id s.change s.add s.del (segsOf s.path) ""
        (buildRoot stats0)) (segsOf s.path) = _
      exact findPath_insertParts_self (segsOf s.path) "" (buildRoot stats0)
        s.id s.change s.add s.del hne
    refine ⟨hself, ?_⟩
    intro R hR
    rw [findPath_append (segsOf s.path) _ R hne hR, hself]
  · rfl

theorem claim_c10_file_overwrites_directory_witness :
    findPath (insertStat (buildRoot
        [ { id := "b", path := "a/b", change := .added, add := 1, del := 0 } ])
        { id := "a", path := "a", change := .deleted, add := 2, del := 3 })
      (segsOf "a") =
      some (.file ((segsOf "a").getLastD "") (joinSegs "" (segsOf "a"))
        "a" .deleted 2 3) ∧
    findPath (insertStat (buildRoot
        [ { id := "b", path := "a/b", change := .added, add := 1, del := 0 } ])
        { id := "a", path := "a", change := .deleted, add := 2, del := 3 })
      (segsOf "a" ++ ["b"]) = none := by
  have h := claim_c10_file_overwrites_directory.1
    [ { id := "b", path := "a/b", change := .added, add := 1, del := 0 } ]
    { id := "a", path := "a", change := .deleted, add := 2, del := 3 }
    "a" "a" 0 0 [("b", .file "b" "a/b" "b" .added 1 0)]
    (by decide) rfl
  exact ⟨h.1, h.2 ["b"] (by decide)⟩

theorem WF_lookup : ∀ (m : BMap) (k : String) (nd : BNode),
    WFMap m → lookupKey m k = some nd → WFNode nd
  | [], k, nd, _, h => by simp [lookupKey] at h
  | (k0, v0) :: rest, k, nd, wf, h => by
      by_cases hk : k0 = k
      · rw [lookupKey, if_pos hk] at h
        injection h with h
        rw [← h]
        exact wf.2.2.1
      · rw [lookupKey, if_neg hk] at h
        exact WF_lookup rest k nd wf.2.2.2 h

theorem WF_lookup_name : ∀ (m : BMap) (k : String) (nd : BNode),
    WFMap m → lookupKey m k = some nd → nameB nd = k
  | [], k, nd, _, h => by simp [lookupKey] at h
  | (k0, v0) :: rest, k, nd, wf, h => by
      by_cases hk : k0 = k
      · rw [lookupKey, if_pos hk] at h
        injection h with h
        rw [← h, ← hk]
        exact wf.1
      · rw [lookupKey, if_neg hk] at h
        exact WF_lookup_name rest k nd wf.2.2.2 h

theorem WFMap_setKey : ∀ (m : BMap) (k : String) (v : BNode),
    WFMap m → WFNode v → nameB v = k → WFMap (setKey m k v)
  | [], k, v, _, hv, hname => ⟨hname, rfl, hv, trivial⟩
  | (k0, v0) :: rest, k, v, wf, hv, hname => by
      by_cases hk : k0 = k
      · simp only [setKey, if_pos hk]
        refine ⟨hname, ?_, hv, wf.2.2.2⟩
        rw [← hk]
        exact wf.2.1
      · simp only [setKey, if_neg hk]
        refine ⟨wf.1, ?_, wf.2.2.1, WFMap_setKey rest k v wf.2.2.2 hv hname⟩
        rw [lookupKey_setKey_other rest k v k0 (fun he => hk he.symm)]
        exact wf.2.1

theorem WFMap_insertParts :
    ∀ (parts : List String) (cur : String) (m : BMap) (id : String)
      (ch : DiffChangeKind) (a d : Nat),
      WFMap m → WFMap (insertParts id ch a d parts cur m)
  | [], _, m, _, _, _, _, wf => wf
  | [part], cur, m, id, ch, a, d, wf =>
      WFMap_setKey m part _ wf trivial rfl
  | p :: p2 :: ps, cur, m, id, ch, a, d, wf => by
      have hrec := fun (cm : BMap) (h : WFMap cm) =>
        WFMap_insertParts (p2 :: ps) (jsJoin cur p) cm id ch a d h
      rcases hl : lookupKey m p with _ | nd
      · simp only [insertParts, hl]
        exact WFMap_setKey m p _ wf (hrec [] trivial) rfl
      · cases nd with
        | file fn fp fid fch fa fd =>
            simp only [insertParts, hl]
            exact WFMap_setKey m p _ wf (hrec [] trivial) rfl
        | dir dn dp da dd cm =>
            simp only [insertParts, hl]
            have hwfcm : WFMap cm := WF_lookup m p _ wf hl
            have hdn : dn = p := WF_lookup_name m p _ wf hl
            exact WFMap_setKey m p _ wf (hrec cm hwfcm) hdn

theorem WFMap_foldl_insertStat :
    ∀ (stats : List FileStat) (m : BMap), WFMap m →
      WFMap (List.foldl insertStat m stats)
  | [], m, wf => wf
  | t :: ts, m, wf => by
      rw [List.foldl_cons]
      exact WFMap_foldl_insertStat ts (insertStat m t)
        (WFMap_insertParts (segsOf t.path) "" m t.id t.change t.add t.del wf)

theorem WFMap_buildRoot (stats : List FileStat) : WFMap (buildRoot stats) :=
  WFMap_foldl_insertStat stats [] trivial

theorem nodeName_convertNode (lcmp : String → String → Ordering) :
    ∀ nd : BNode, nodeName (convertNode lcmp nd) = nameB nd
  | .file _ _ _ _ _ _ => rfl
  | .dir _ _ _ _ _ => rfl

theorem convertMap_find? (lcmp : String → String → Ordering) (k : String) :
    ∀ m : BMap, WFMap m →
      (convertMap lcmp m).find? (fun nd => nodeName nd == k) =
        Option.map (convertNode lcmp) (lookupKey m k)
  | [], _ => rfl
  | (k0, nd0) :: rest, wf => by
      have hname : nodeName (convertNode lcmp nd0) = k0 := by
        rw [nodeName_convertNode]
        exact wf.1
      by_cases hk : k0 = k
      · show List.find? _ (convertNode lcmp nd0 :: convertMap lcmp rest) = _
        rw [List.find?_cons_of_pos _ (by simp [hname, hk]), lookupKey, if_pos hk]
        rfl
      · show List.find? _ (convertNode lcmp nd0 :: convertMap lcmp rest) = _
        rw [List.find?_cons_of_neg _ (by simp [hname, hk]), lookupKey, if_neg hk]
        exact convertMap_find? lcmp k rest wf.2.2.2

theorem countP_convertMap_of_lookup_none (lcmp : String → String → Ordering) (k : String) :
    ∀ m : BMap, WFMap m → lookupKey m k = none →
      (convertMap lcmp m).countP (fun nd => nodeName nd == k) = 0
  | [], _, _ => rfl
  | (k0, nd0) :: rest, wf, hl => by
      have hk : k0 ≠ k := by
        intro he
        rw [lookupKey, if_pos he] at hl
        exact absurd hl (by simp)
      rw [lookupKey, if_neg hk] at hl
      have hname : nodeName (convertNode lcmp nd0) = k0 := by
        rw [nodeName_convertNode]
        exact wf.1
      show List.countP _ (convertNode lcmp nd0 :: convertMap lcmp rest) = 0
      rw [List.countP_cons_of_neg _ _ (by simp [hname, hk])]
      exact countP_convertMap_of_lookup_none lcmp k rest wf.2.2.2 hl

theorem countP_convertMap_le_one (lcmp : String → String → Ordering) (k : String) :
    ∀ m : BMap, WFMap m →
      (convertMap lcmp m).countP (fun nd => nodeName nd == k) ≤ 1
  | [], _ => by simp [convertMap]
  | (k0, nd0) :: rest, wf => by
      have hname : nodeName (convertNode lcmp nd0) = k0 := by
        rw [nodeName_convertNode]
        exact wf.1
      show List.countP _ (convertNode lcmp nd0 :: convertMap lcmp rest) ≤ 1
      by_cases hk : k0 = k
      · rw [List.countP_cons_of_pos _ _ (by simp [hname, hk])]
        have h0 : (convertMap lcmp rest).countP (fun nd => nodeName nd == k) = 0 := by
          apply countP_convertMap_of_lookup_none lcmp k rest wf.2.2.2
          rw [← hk]
          exact wf.2.1
        omega
      · rw [List.countP_cons_of_neg _ _ (by simp [hname, hk])]
        exact countP_convertMap_le_one lcmp k rest wf.2.2.2

theorem find?_eq_some_of_mem_unique {α : Type} (p : α → Bool) :
    ∀ (l : List α) (a : α), a ∈ l → p a = true → l.countP p ≤ 1 →
      l.find? p = some a
  | [], a, ha, _, _ => absurd ha (List.not_mem_nil a)
  | x :: xs, a, ha, hpa, hcount => by
      by_cases hx : p x = true
      · rw [List.find?_cons_of_pos _ hx]
        rcases List.mem_cons.mp ha with rfl | hma
        · rfl
        · exfalso
          rw [List.countP_cons_of_pos _ _ hx] at hcount
          have hpos : 0 < xs.countP p := List.countP_pos_iff.mpr ⟨a, hma, hpa⟩
          omega
      · have hax : a ≠ x := fun he => hx (he ▸ hpa)
        rcases List.mem_cons.mp ha with rfl | hma
        · exact absurd rfl hax
        · rw [List.find?_cons_of_neg _ hx]
          rw [List.countP_cons_of_neg _ _ hx] at hcount
          exact find?_eq_some_of_mem_unique p xs a hma hpa hcount

theorem find?_perm_unique {α : Type} (p : α → Bool) {l l' : List α}
    (hp : l.Perm l') (hcount : l.countP p ≤ 1) : l.find? p = l'.find? p := by
  cases hf : l.find? p with
  | none =>
      rw [List.find?_eq_none] at hf
      exact (List.find?_eq_none.mpr fun x hx => hf x (hp.mem_iff.mpr hx)).symm
  | some a =>
      have ha : a ∈ l := List.mem_of_find?_eq_some hf
      have hpa : p a = true := List.find?_some hf
      exact (find?_eq_some_of_mem_unique p l' a (hp.subset ha) hpa
        (by rw [← hp.countP_eq]; exact hcount)).symm

theorem toArray_find? (lcmp : String → String → Ordering) (k : String)
    (m : BMap) (wf : WFMap m) :
    (toArray lcmp m).find? (fun nd => nodeName nd == k) =
      Option.map (convertNode lcmp) (lookupKey m k) := by
  unfold toArray
  rw [find?_perm_unique _ (List.perm_insertionSort (nodeLe lcmp) (convertMap lcmp m))
    (by rw [(List.perm_insertionSort (nodeLe lcmp) (convertMap lcmp m)).countP_eq]
        exact countP_convertMap_le_one lcmp k m wf)]
  exact convertMap_find? lcmp k m wf

theorem findForest_toArray (lcmp : String → String → Ordering) :
    ∀ (parts : List String) (m : BMap), WFMap m →
      findForest (toArray lcmp m) parts =
        Option.map (convertNode lcmp) (findPath m parts)
  | [], m, _ => rfl
  | [p], m, wf => by
      show (toArray lcmp m).find? (fun nd => nodeName nd == p) = _
      rw [toArray_find? lcmp p m wf]
      rfl
  | p :: q :: rest, m, wf => by
      show (match (toArray lcmp m).find? (fun nd => nodeName nd == p) with
        | some (.dir _ _ cs _ _) => findForest cs (q :: rest)
        | _ => none) = _
      rw [toArray_find? lcmp p m wf]
      rcases hl : lookupKey m p with _ | nd
      · simp only [findPath, hl, Option.map_none']
      · cases nd with
        | file fn fp fid fch fa fd =>
            simp only [findPath, hl, convertNode, Option.map_some']
            rfl
        | dir dn dp da dd cm =>
            simp only [findPath, hl, convertNode, Option.map_some']
            show findForest (toArray lcmp cm) (q :: rest) = _
            exact findForest_toArray lcmp (q :: rest) cm (WF_lookup m p _ wf hl)

/-- Claim C6, amended: among several stats normalizing to the same path the
last one wins, provided no later stat has a segment path comparable (prefix
or extension) to it: walking the returned forest along that segment path
reaches exactly the file node carrying the last stat id, change, add and
del. -/
theorem claim_c6_duplicate_path_last_write_wins (lcmp : String → String → Ordering)
    (pre post : List FileStat) (s : FileStat)
    (hdup : ∃ t ∈ pre, segsOf t.path = segsOf s.path)
    (hne : segsOf s.path ≠ [])
    (hpost : ∀ t ∈ post, SegIncomp (segsOf t.path) (segsOf s.path)) :
    findForest (buildDiffTree lcmp (pre ++ s :: post)) (segsOf s.path) =
      some (.file ((segsOf s.path).getLastD "") (joinSegs "" (segsOf s.path))
        s.id s.change s.add s.del) := by
  unfold buildDiffTree
  rw [findForest_toArray lcmp (segsOf s.path) _ (WFMap_buildRoot (pre ++ s :: post))]
  rw [findPath_buildRoot pre post s hne hpost]
  rfl

/-- Claim C6 as stated is false: `exC6` contains two stats normalizing to
path `a` (ids `x` then `y`), yet the returned forest does not hold exactly
one file node with the later id `y` at that path — it holds none, because a
still later stat at `a/b` turned the surviving leaf into a directory. -/
theorem claim_c6_counterexample :
    exC6[0]?.map FileStat.path = some "a" ∧
    exC6[1]?.map FileStat.path = some "a" ∧
    countIdForest "y" (buildDiffTree strCmp exC6) = 0 ∧
    buildDiffTree strCmp exC6 =
      [ .dir "a" "a" [ .file "b" "a/b" "z" .modified 4 0 ] 4 0 ] :=
  ⟨rfl, rfl, rfl, rfl⟩

theorem claim_c6_duplicate_path_last_write_wins_witness :
    findForest (buildDiffTree strCmp
        [ { id := "x", path := "a", change := .modified, add := 1, del := 0 },
          { id := "y", path := "a", change := .modified, add := 2, del := 0 } ])
      (segsOf "a") =
      some (.file ((segsOf "a").getLastD "") (joinSegs "" (segsOf "a"))
        "y" .modified 2 0) :=
  claim_c6_duplicate_path_last_write_wins strCmp
    [ { id := "x", path := "a", change := .modified, add := 1, del := 0 } ] []
    { id := "y", path := "a", change := .modified, add := 2, del := 0 }
    ⟨{ id := "x", path := "a", change := .modified, add := 1, del := 0 },
      List.mem_singleton.mpr rfl, rfl⟩
    (by decide)
    (fun t ht => absurd ht (List.not_mem_nil t))
